import Mathlib

/-!
Shallow embedding of the Magenta Waiter (kernel/lib/magenta/include/magenta/waiter.h).

The header declares the class, its data members and the inline methods
`set_initial_signals_state` and `UpdateSatisfied`; the out-of-line method
bodies (waiter.cpp) are not part of the source tree given here, so they are
modelled from the specification, as marked on each definition.

Bitmasks (`mx_signals_t`, a 32-bit unsigned integer) are embedded as `Nat`;
every operation used (`&`, `|`, `^`, and `a & ~b` as `bitClear`) is width
preserving, so no explicit truncation is required. Pointer identities
(`WaitEvent*`, `Handle*`, the port queue) are embedded as `Nat` ids.
Raising a blocking signal and posting a port packet are externally observable
effects; the embedding returns them explicitly (the list of notified
registrations, the list of posted packets).
-/

/-- The signal-state pair from magenta/types.h: current (`satisfied`) and
potential (`satisfiable`) readiness bitmasks of one object. -/
structure mx_signals_state_t where
  satisfied : Nat
  satisfiable : Nat
deriving DecidableEq, Repr

/-- `Waiter::WaitNode` (waiter.h lines 91-104): one wait registration binding a
blocking signal (`event`), the owning handle, an interest mask and a context
value. The intrusive `next` pointer is represented by the node's position in
the `nodes` list. -/
structure WaitNode where
  event : Nat
  handle : Nat
  signals : Nat
  context : Nat
deriving DecidableEq, Repr

/-- The io-port binding members of `Waiter` (waiter.h lines 118-121):
`io_port_`, `io_port_key_`, `io_port_signals_`, grouped as one optional
record since an absent port is `io_port_ == nullptr`. -/
structure PortBinding where
  io_port : Nat
  key : Nat
  signals : Nat
deriving DecidableEq, Repr

/-- The readiness packet posted to a bound io port: the binding's key plus a
snapshot of the satisfied/satisfiable masks. -/
structure IOP_Packet where
  key : Nat
  satisfied : Nat
  satisfiable : Nat
deriving DecidableEq, Repr

/-- `Waiter` state (waiter.h lines 110-121): the wait-registration list
`nodes_`, the signal state `signals_state_`, and the optional port binding.
The spin lock serializes the operations; in the embedding each operation is
one atomic step, so the lock itself has no representation. -/
structure Waiter where
  nodes : List WaitNode
  signals_state : mx_signals_state_t
  io_port : Option PortBinding
deriving DecidableEq, Repr

/-- The `Waiter` constructor (waiter.h line 55): empty wait set, no port
binding, signal state as given (default `{0u, 0u}`). -/
def Waiter.init (signals_state : mx_signals_state_t) : Waiter :=
  ⟨[], signals_state, none⟩

/-- The C expression `a & ~b`, width independent: clearing from `a` the bits
set in `b`. Written as `a ^^^ (a &&& b)` so it evaluates on concrete inputs;
`bitClear_eq_ldiff` below checks it against the textbook bitwise difference. -/
def bitClear (a b : Nat) : Nat := a ^^^ (a &&& b)

/-- `Waiter::set_initial_signals_state` (waiter.h lines 62-64, inline in the
header): plain assignment `signals_state_ = signals_state;` — no locking, no
notification, nothing else touched. -/
def Waiter.set_initial_signals_state (w : Waiter) (signals_state : mx_signals_state_t) : Waiter :=
  { w with signals_state := signals_state }

/-- The bits whose transition wakes waiters: bits newly satisfied plus bits
newly unsatisfiable. Per the header comment on `UpdateState` (waiter.h lines
78-79), clearing satisfied signals or setting satisfiable signals does not
wake anyone; per the spec, a waiter is woken when a signal became newly
satisfied or newly unsatisfiable. -/
def wakeBits (old new : mx_signals_state_t) : Nat :=
  bitClear new.satisfied old.satisfied ||| bitClear old.satisfiable new.satisfiable

/-- Result of `Waiter::UpdateState`: the new waiter state, the registrations
whose blocking signal was raised, the packets posted to the bound port, and
the boolean return value. -/
structure UpdateResult where
  waiter : Waiter
  raised : List WaitNode
  packets : List IOP_Packet
  awoke : Bool
deriving DecidableEq, Repr

/-- Modelled from the spec: the body of `Waiter::UpdateState` (waiter.cpp is
not in the tree; waiter.h lines 80-84 declare it). Under the lock it computes
`newSatisfied = (satisfied & ~satisfied_clear_mask) | satisfied_set_mask` and
`newSatisfiable = (satisfiable & ~satisfiable_clear_mask) |
satisfiable_set_mask`, stores both, raises the blocking signal of every
registration whose interest mask meets the wake bits (without unlinking it),
posts one packet with the new snapshot to the bound port if its interest mask
meets the wake bits, and returns whether anyone was notified. The caller
contract (asserted in the code) is that the new state keeps
`satisfied ⊆ satisfiable`; the `yield` flag is a scheduling hint with no
effect on the engine state. -/
def Waiter.UpdateState (w : Waiter)
    (satisfied_set_mask satisfied_clear_mask satisfiable_set_mask satisfiable_clear_mask : Nat)
    (yield : Bool) : UpdateResult :=
  let old := w.signals_state
  let ns : mx_signals_state_t :=
    ⟨bitClear old.satisfied satisfied_clear_mask ||| satisfied_set_mask,
     bitClear old.satisfiable satisfiable_clear_mask ||| satisfiable_set_mask⟩
  let wake := wakeBits old ns
  let raised := w.nodes.filter (fun n => n.signals &&& wake != 0)
  let packets :=
    match w.io_port with
    | some pb => if pb.signals &&& wake != 0 then [⟨pb.key, ns.satisfied, ns.satisfiable⟩] else []
    | none => []
  ⟨{ w with signals_state := ns }, raised, packets, !raised.isEmpty || !packets.isEmpty⟩

/-- `Waiter::UpdateSatisfied` (waiter.h lines 86-88, inline in the header):
delegates to `UpdateState(set_mask, clear_mask, 0u, 0u, yield)`. -/
def Waiter.UpdateSatisfied (w : Waiter) (set_mask clear_mask : Nat) (yield : Bool) :
    UpdateResult :=
  w.UpdateState set_mask clear_mask 0 0 yield

/-- Result of `Waiter::BeginWait`: status and new waiter state. -/
structure BeginWaitResult where
  status : Int
  waiter : Waiter
deriving DecidableEq, Repr

/-- `mx_status_t` value NO_ERROR. -/
def NO_ERROR : Int := 0

/-- `mx_status_t` value ERR_TIMED_OUT (symbolic; only distinctness from the
other codes matters here). -/
def ERR_TIMED_OUT : Int := -3

/-- `mx_status_t` value ERR_BAD_STATE (symbolic; only distinctness from the
other codes matters here). -/
def ERR_BAD_STATE : Int := -20

/-- Modelled from the spec: the body of `Waiter::BeginWait` (waiter.cpp is not
in the tree; waiter.h line 67 declares it). Under the lock it creates a
WaitRegistration and links it into the wait set; no signal is raised
synchronously, even when the current satisfied state already meets the
interest mask. Allocation failure is the only failure path and is outside the
pure model, so the status is always NO_ERROR here. -/
def Waiter.BeginWait (w : Waiter) (event handle signals context : Nat) : BeginWaitResult :=
  ⟨NO_ERROR, { w with nodes := ⟨event, handle, signals, context⟩ :: w.nodes }⟩

/-- Unlink the single matching registration, by identity of the blocking
signal: the first node whose `event` matches is removed. -/
def finishRemove (event : Nat) (l : List WaitNode) : List WaitNode :=
  l.eraseP (fun n => n.event == event)

/-- Result of `Waiter::FinishWait`: the returned snapshot and the new waiter
state. -/
structure FinishWaitResult where
  state : mx_signals_state_t
  waiter : Waiter
deriving DecidableEq, Repr

/-- Modelled from the spec: the body of `Waiter::FinishWait` (waiter.cpp is
not in the tree; waiter.h line 70 declares it). Under the lock it locates and
unlinks the single registration matching the blocking signal (a no-op when a
concurrent CancelWait already removed it) and returns a snapshot of the
current signal state. -/
def Waiter.FinishWait (w : Waiter) (event : Nat) : FinishWaitResult :=
  ⟨w.signals_state, { w with nodes := finishRemove event w.nodes }⟩

/-- Unlink every registration whose owner handle matches. -/
def cancelRemove (handle : Nat) (l : List WaitNode) : List WaitNode :=
  l.filter (fun n => n.handle != handle)

/-- Result of `Waiter::CancelWait`: whether a matching registration was found
and removed, the new waiter state, and the (always empty) list of
registrations whose blocking signal the call raised. -/
structure CancelWaitResult where
  found : Bool
  waiter : Waiter
  raised : List WaitNode
deriving DecidableEq, Repr

/-- Modelled from the spec: the body of `Waiter::CancelWait` (waiter.cpp is
not in the tree; waiter.h line 76 declares it). Under the lock it scans the
wait set and unlinks every registration whose owner handle matches, returns
whether any was found, and raises no blocking signal. -/
def Waiter.CancelWait (w : Waiter) (handle : Nat) : CancelWaitResult :=
  ⟨w.nodes.any (fun n => n.handle == handle),
   { w with nodes := cancelRemove handle w.nodes },
   []⟩

/-- Result of `Waiter::BindIOPort`: success flag, new waiter state, and the
packets posted during the bind. -/
structure BindIOPortResult where
  ok : Bool
  waiter : Waiter
  packets : List IOP_Packet
deriving DecidableEq, Repr

/-- Modelled from the spec: the body of `Waiter::BindIOPort` (waiter.cpp is
not in the tree; waiter.h line 73 declares it). Under the lock it replaces
any existing port binding with the new one; if the currently satisfied state
already meets the interest mask, one readiness packet carrying the current
snapshot and the binding's key is posted immediately. Port-queue teardown is
the only failure path and is outside the pure model, so `ok` is always true
here. -/
def Waiter.BindIOPort (w : Waiter) (io_port key signals : Nat) : BindIOPortResult :=
  ⟨true,
   { w with io_port := some ⟨io_port, key, signals⟩ },
   if w.signals_state.satisfied &&& signals != 0 then
     [⟨key, w.signals_state.satisfied, w.signals_state.satisfiable⟩]
   else []⟩

/-- Modelled from the spec: the syscall-layer `mx_handle_wait_one` (the
syscall implementation is not in the tree; message-pipe.c calls it). Per the
usage example in waiter.h lines 34-40 it runs `BeginWait` with a fresh
blocking signal (`event`), parks on that signal for up to `timeout`, then runs
`FinishWait` to unlink the registration and read the snapshot. This models
the single-threaded call with no concurrent `UpdateState`: since `BeginWait`
raises no signal, the park ends unsatisfied, and the status reported is
ERR_BAD_STATE when the requested signals are not even satisfiable
(`satisfiable & signals == 0`, the "Unsatisfiable" assertion of
message-pipe.c lines 80-92), ERR_TIMED_OUT otherwise. The snapshot from
`FinishWait` is written to the caller-supplied signals-state out-parameter in
either case. -/
def mx_handle_wait_one (w : Waiter) (event handle signals timeout : Nat) :
    Int × mx_signals_state_t × Waiter :=
  let b := w.BeginWait event handle signals 0
  let f := b.waiter.FinishWait event
  let status : Int :=
    if f.state.satisfiable &&& signals == 0 then ERR_BAD_STATE else ERR_TIMED_OUT
  (status, f.state, f.waiter)

/-- One `UpdateState` argument tuple, for stating properties of call
sequences. -/
structure UpdateArgs where
  satisfied_set_mask : Nat
  satisfied_clear_mask : Nat
  satisfiable_set_mask : Nat
  satisfiable_clear_mask : Nat
  yield : Bool
deriving DecidableEq, Repr

/-- The waiter state after one `UpdateState` call. -/
def applyUpdate (w : Waiter) (a : UpdateArgs) : Waiter :=
  (w.UpdateState a.satisfied_set_mask a.satisfied_clear_mask
     a.satisfiable_set_mask a.satisfiable_clear_mask a.yield).waiter

/-- The waiter state after a sequence of `UpdateState` calls. -/
def runUpdates (w : Waiter) : List UpdateArgs → Waiter
  | [] => w
  | a :: t => runUpdates (applyUpdate w a) t

/-- Bitmask inclusion `a ⊆ b`, as a boolean: every bit set in `a` is set in
`b`. -/
def maskLe (a b : Nat) : Bool := a &&& b == a

/-- The signal-state invariant: `satisfied ⊆ satisfiable`. -/
def stateInv (w : Waiter) : Bool :=
  maskLe w.signals_state.satisfied w.signals_state.satisfiable

/-- The caller contract of one `UpdateState` call, asserted by the code: the
masks the call is about to store satisfy `newSatisfied ⊆ newSatisfiable`. -/
def updateContract (w : Waiter) (a : UpdateArgs) : Bool :=
  maskLe
    (bitClear w.signals_state.satisfied a.satisfied_clear_mask ||| a.satisfied_set_mask)
    (bitClear w.signals_state.satisfiable a.satisfiable_clear_mask ||| a.satisfiable_set_mask)

/-- Every call of the sequence, run from `w`, respects the caller contract. -/
def contractOK : Waiter → List UpdateArgs → Bool
  | _, [] => true
  | w, a :: t => updateContract w a && contractOK (applyUpdate w a) t

/-- One serialized operation on the waiter, for stating race interleavings:
the spin lock makes each call atomic, so a concurrent execution is an
arbitrary interleaving of these steps. -/
inductive WaiterOp where
  | cancel (handle : Nat)
  | finish (event : Nat)
  | update (a : UpdateArgs)
deriving DecidableEq, Repr

/-- The waiter state after one serialized operation. -/
def applyOp (w : Waiter) : WaiterOp → Waiter
  | .cancel h => (w.CancelWait h).waiter
  | .finish e => (w.FinishWait e).waiter
  | .update a => applyUpdate w a

/-- The waiter state after a sequence of serialized operations. -/
def runOps (w : Waiter) : List WaiterOp → Waiter
  | [] => w
  | op :: t => runOps (applyOp w op) t

/-- For each operation of the sequence in turn, how many copies of the
registration `r` it unlinked. -/
def removalTrace (w : Waiter) (r : WaitNode) : List WaiterOp → List Nat
  | [] => []
  | op :: t =>
    (w.nodes.count r - (applyOp w op).nodes.count r) :: removalTrace (applyOp w op) r t

/-- How many registrations one operation unlinks (the drop in wait-set
length). -/
def opRemoves (w : Waiter) (op : WaiterOp) : Nat :=
  w.nodes.length - (applyOp w op).nodes.length

/-- Total number of registrations unlinked across a sequence of serialized
operations. -/
def removalCount (w : Waiter) : List WaiterOp → Nat
  | [] => 0
  | op :: t => opRemoves w op + removalCount (applyOp w op) t

/-- Sanity check of the embedding of `a & ~b`: `bitClear` agrees with
`Nat.ldiff` on every input. -/
theorem bitClear_eq_ldiff (a b : Nat) : bitClear a b = Nat.ldiff a b := by
  apply Nat.eq_of_testBit_eq
  intro i
  simp only [bitClear, Nat.testBit_xor, Nat.testBit_and, Nat.testBit_ldiff]
  cases a.testBit i <;> cases b.testBit i <;> rfl

/-- The state stored by one `UpdateState` call satisfies the invariant
exactly when the call's inputs satisfied the caller contract. -/
theorem stateInv_applyUpdate (w : Waiter) (a : UpdateArgs) :
    stateInv (applyUpdate w a) = updateContract w a :=
  rfl

/-- C1: for every sequence of `UpdateState` calls on a waiter, each computing
`newSatisfied = (satisfied & ~satisfiedClear) | satisfiedSet` and
`newSatisfiable = (satisfiable & ~satisfiableClear) | satisfiableSet`, the
stored signal state satisfies `satisfied ⊆ satisfiable` after every call,
given that each call's inputs respect the caller contract (the assertion the
code checks on the masks it is about to store). -/
theorem waiter_update_state_invariant (w : Waiter) (args : List UpdateArgs)
    (h : contractOK w args = true) :
    ∀ n, 0 < n → n ≤ args.length → stateInv (runUpdates w (args.take n)) = true := by
  induction args generalizing w with
  | nil =>
    intro n hpos hle
    simp only [List.length_nil] at hle
    omega
  | cons a t ih =>
    intro n hpos hle
    simp only [contractOK, Bool.and_eq_true] at h
    obtain ⟨h1, h2⟩ := h
    obtain _ | m := n
    · omega
    · simp only [List.take_succ_cons, runUpdates]
      obtain _ | k := m
      · simp only [List.take_zero, runUpdates]
        rw [stateInv_applyUpdate]
        exact h1
      · refine ih (applyUpdate w a) h2 (k + 1) (Nat.succ_pos k) ?_
        simp only [List.length_cons] at hle
        omega

/-- C1 witness: a concrete two-call sequence respecting the contract; the
invariant holds after the second call by the theorem. -/
theorem waiter_update_state_invariant_witness :
    contractOK (Waiter.init ⟨0, 0⟩) [⟨1, 0, 1, 0, false⟩, ⟨2, 0, 3, 0, false⟩] = true ∧
    stateInv (runUpdates (Waiter.init ⟨0, 0⟩)
      (([⟨1, 0, 1, 0, false⟩, ⟨2, 0, 3, 0, false⟩] : List UpdateArgs).take 2)) = true :=
  ⟨by simp [contractOK, updateContract, applyUpdate, Waiter.UpdateState, maskLe, bitClear,
     Waiter.init],
   waiter_update_state_invariant (Waiter.init ⟨0, 0⟩)
     [⟨1, 0, 1, 0, false⟩, ⟨2, 0, 3, 0, false⟩]
     (by simp [contractOK, updateContract, applyUpdate, Waiter.UpdateState, maskLe, bitClear,
       Waiter.init])
     2 (by decide) (by decide)⟩

/-- C2 counterexample: clearing a satisfied bit inside the registration's
interest mask changes that bit's satisfied value, yet the registration is not
notified (per the header comment, clearing satisfied signals wakes no one) —
so "notified iff the call changes the satisfied-or-satisfiable value of at
least one bit in M" fails at this input. -/
theorem waiter_notify_on_any_change_cex :
    (((Waiter.mk [⟨5, 7, 1, 0⟩] ⟨1, 1⟩ none).signals_state.satisfied ^^^
        ((Waiter.mk [⟨5, 7, 1, 0⟩] ⟨1, 1⟩ none).UpdateState 0 1 0 0
          false).waiter.signals_state.satisfied) |||
      ((Waiter.mk [⟨5, 7, 1, 0⟩] ⟨1, 1⟩ none).signals_state.satisfiable ^^^
        ((Waiter.mk [⟨5, 7, 1, 0⟩] ⟨1, 1⟩ none).UpdateState 0 1 0 0
          false).waiter.signals_state.satisfiable)) &&& 1 = 1 ∧
    ((Waiter.mk [⟨5, 7, 1, 0⟩] ⟨1, 1⟩ none).UpdateState 0 1 0 0 false).raised = [] := by
  refine ⟨?_, ?_⟩ <;>
    simp [Waiter.UpdateState, wakeBits, bitClear, List.filter]

/-- C2 as amended: an `UpdateState` call raises a linked registration's
blocking signal if and only if at least one bit of its interest mask became
newly satisfied or newly unsatisfiable in that call (bits merely cleared from
satisfied, or newly set in satisfiable, notify no one), and the registration
is not unlinked by the notification. -/
theorem waiter_notify_iff_wake_bits (w : Waiter) (a b c d : Nat) (y : Bool)
    (n : WaitNode) (hn : n ∈ w.nodes) :
    (n ∈ (w.UpdateState a b c d y).raised ↔
      n.signals &&& wakeBits w.signals_state (w.UpdateState a b c d y).waiter.signals_state ≠ 0) ∧
    (w.UpdateState a b c d y).waiter.nodes = w.nodes := by
  constructor
  · simp only [Waiter.UpdateState]
    simp [List.mem_filter, hn]
  · rfl

/-- C2 amended witness: a registration whose interest bit becomes newly
satisfied is notified and stays linked. -/
theorem waiter_notify_iff_wake_bits_witness :
    (⟨5, 7, 1, 0⟩ : WaitNode) ∈
      ((Waiter.mk [⟨5, 7, 1, 0⟩] ⟨0, 1⟩ none).UpdateState 1 0 0 0 false).raised ∧
    ((Waiter.mk [⟨5, 7, 1, 0⟩] ⟨0, 1⟩ none).UpdateState 1 0 0 0 false).waiter.nodes
      = [⟨5, 7, 1, 0⟩] := by
  have h := waiter_notify_iff_wake_bits (Waiter.mk [⟨5, 7, 1, 0⟩] ⟨0, 1⟩ none) 1 0 0 0 false
    ⟨5, 7, 1, 0⟩ (by decide)
  exact ⟨h.1.mpr (by simp [Waiter.UpdateState, wakeBits, bitClear]), h.2⟩

/-- C8: for all masks `set`, `clear` and every boolean `yield`,
`UpdateSatisfied(set, clear, yield)` is extensionally equal to
`UpdateState(set, clear, 0, 0, yield)`: same resulting signal state, same
notifications, same return value. -/
theorem waiter_update_satisfied_refines_update_state
    (w : Waiter) (set_mask clear_mask : Nat) (yield : Bool) :
    w.UpdateSatisfied set_mask clear_mask yield = w.UpdateState set_mask clear_mask 0 0 yield :=
  rfl

/-- C9: for every state `s`, `set_initial_signals_state s` stores `s` as the
waiter's signal state and has no other effect: the wait set and the port
binding are unchanged, and (by the shape of the operation, which produces no
notification output) no blocking signal is raised and no packet is posted. -/
theorem waiter_set_initial_signals_state_frame (w : Waiter) (s : mx_signals_state_t) :
    (w.set_initial_signals_state s).signals_state = s ∧
    (w.set_initial_signals_state s).nodes = w.nodes ∧
    (w.set_initial_signals_state s).io_port = w.io_port ∧
    w.set_initial_signals_state s = { w with signals_state := s } :=
  ⟨rfl, rfl, rfl, rfl⟩

/-- C4: for every waiter constructed with initial signal state `s`, a
successful `BeginWait` followed immediately by `FinishWait` on the same
blocking signal, with no intervening `UpdateState`, returns a signal-state
snapshot equal to `s`, and the matching registration is unlinked so the wait
set is restored to its prior (empty) contents — the waiter is exactly as
constructed. -/
theorem waiter_begin_finish_roundtrip (s : mx_signals_state_t) (event handle signals context : Nat) :
    ((Waiter.init s).BeginWait event handle signals context).status = NO_ERROR ∧
    ((((Waiter.init s).BeginWait event handle signals context).waiter.FinishWait event).state = s) ∧
    ((((Waiter.init s).BeginWait event handle signals context).waiter.FinishWait event).waiter
      = Waiter.init s) := by
  refine ⟨rfl, rfl, ?_⟩
  simp [Waiter.init, Waiter.BeginWait, Waiter.FinishWait, finishRemove, List.eraseP_cons]

/-- C10: for every waiter state, a wait call with an empty (zero) interest
mask and a zero timeout fails immediately with ERR_BAD_STATE (the requested
signals are unsatisfiable) while still writing the object's current satisfied
and satisfiable masks into the caller-supplied snapshot, and leaves the
waiter unchanged — a non-blocking poll of signal state. -/
theorem wait_one_zero_mask_polls_state (w : Waiter) (event handle : Nat) :
    mx_handle_wait_one w event handle 0 0 = (ERR_BAD_STATE, w.signals_state, w) := by
  simp [mx_handle_wait_one, Waiter.BeginWait, Waiter.FinishWait, finishRemove,
    List.eraseP_cons]

/-- C5: for every `BindIOPort` call, the new port binding (queue, key,
interest mask) replaces any existing binding, and exactly when the currently
satisfied mask intersects the new interest mask, exactly one readiness packet
carrying the current satisfied/satisfiable snapshot and the binding's key is
posted immediately during the bind; the bind succeeds and touches neither the
wait set nor the signal state. -/
theorem waiter_bind_io_port_replaces_and_posts (w : Waiter) (io_port key signals : Nat) :
    (w.BindIOPort io_port key signals).waiter.io_port = some ⟨io_port, key, signals⟩ ∧
    (w.BindIOPort io_port key signals).packets =
      (if w.signals_state.satisfied &&& signals != 0 then
        [⟨key, w.signals_state.satisfied, w.signals_state.satisfiable⟩]
       else []) ∧
    (w.BindIOPort io_port key signals).ok = true ∧
    (w.BindIOPort io_port key signals).waiter.nodes = w.nodes ∧
    (w.BindIOPort io_port key signals).waiter.signals_state = w.signals_state :=
  ⟨rfl, rfl, rfl, rfl, rfl⟩

/-- C6: for every `UpdateState` call, the boolean result is true if and only
if at least one waiter was notified by that call — either a wait registration
whose blocking signal was raised or the port binding to which a packet was
posted — and false when no registration and no port binding was notified. -/
theorem waiter_update_state_returns_notified
    (w : Waiter) (a b c d : Nat) (yield : Bool) :
    (w.UpdateState a b c d yield).awoke = true ↔
      ((w.UpdateState a b c d yield).raised ≠ [] ∨
       (w.UpdateState a b c d yield).packets ≠ []) := by
  simp only [Waiter.UpdateState]
  simp [List.isEmpty_iff]

/-- C7: for every `CancelWait(handle)` call, every registration in the wait
set whose owner handle equals the given handle is unlinked (the remaining
wait set is exactly the non-matching registrations, in order), the call
returns true if and only if at least one matching registration was present,
and no blocking signal of any registration is raised by the call; the signal
state and port binding are untouched. -/
theorem waiter_cancel_wait_unlinks_matching (w : Waiter) (handle : Nat) :
    (w.CancelWait handle).waiter.nodes = w.nodes.filter (fun n => n.handle != handle) ∧
    (∀ n ∈ (w.CancelWait handle).waiter.nodes, n.handle ≠ handle) ∧
    (∀ n ∈ w.nodes, n.handle ≠ handle → n ∈ (w.CancelWait handle).waiter.nodes) ∧
    ((w.CancelWait handle).found = true ↔ ∃ n ∈ w.nodes, n.handle = handle) ∧
    (w.CancelWait handle).raised = [] ∧
    (w.CancelWait handle).waiter.signals_state = w.signals_state ∧
    (w.CancelWait handle).waiter.io_port = w.io_port := by
  refine ⟨rfl, ?_, ?_, ?_, rfl, rfl, rfl⟩
  · intro n hn
    simp only [Waiter.CancelWait, cancelRemove, List.mem_filter] at hn
    simpa using hn.2
  · intro n hn hne
    simp only [Waiter.CancelWait, cancelRemove, List.mem_filter]
    exact ⟨hn, by simpa using hne⟩
  · simp [Waiter.CancelWait, List.any_eq_true]

/-- C6 witness: the iff instantiated at a concrete waiter and call. -/
theorem waiter_update_state_returns_notified_witness :
    ((Waiter.init ⟨0, 3⟩).UpdateState 1 0 0 0 false).awoke = true ↔
      (((Waiter.init ⟨0, 3⟩).UpdateState 1 0 0 0 false).raised ≠ [] ∨
       ((Waiter.init ⟨0, 3⟩).UpdateState 1 0 0 0 false).packets ≠ []) :=
  waiter_update_state_returns_notified (Waiter.init ⟨0, 3⟩) 1 0 0 0 false

/-- C7 witness: the cancel properties instantiated at a concrete waiter
holding one matching and one non-matching registration. -/
theorem waiter_cancel_wait_unlinks_matching_witness :
    (Waiter.mk [⟨1, 7, 3, 0⟩, ⟨2, 8, 3, 0⟩] ⟨0, 3⟩ none |>.CancelWait 7).waiter.nodes
        = [⟨2, 8, 3, 0⟩] ∧
    ((Waiter.mk [⟨1, 7, 3, 0⟩, ⟨2, 8, 3, 0⟩] ⟨0, 3⟩ none |>.CancelWait 7).found = true) := by
  have h := waiter_cancel_wait_unlinks_matching (Waiter.mk [⟨1, 7, 3, 0⟩, ⟨2, 8, 3, 0⟩] ⟨0, 3⟩ none) 7
  refine ⟨?_, ?_⟩
  · rw [h.1]
    decide
  · exact h.2.2.2.1.mpr ⟨⟨1, 7, 3, 0⟩, by decide, rfl⟩

/-- A cancel over a wait set with no matching owner handle removes nothing. -/
theorem cancelRemove_eq_self (h : Nat) (l : List WaitNode)
    (hl : ∀ n ∈ l, n.handle ≠ h) : cancelRemove h l = l := by
  rw [cancelRemove, List.filter_eq_self]
  intro n hn
  simpa using hl n hn

/-- A finish over a wait set with no matching blocking signal removes
nothing. -/
theorem finishRemove_eq_self (e : Nat) (l : List WaitNode)
    (hl : ∀ n ∈ l, n.event ≠ e) : finishRemove e l = l := by
  rw [finishRemove]
  apply List.eraseP_of_forall_not
  intro n hn
  simpa using hl n hn

/-- A cancel over a wait set containing exactly one registration with the
target's owner handle removes exactly that registration. -/
theorem cancelRemove_eq_erase (r : WaitNode) (l : List WaitNode)
    (hc : l.count r = 1)
    (hu : ∀ n ∈ l, n ≠ r → n.handle ≠ r.handle) :
    cancelRemove r.handle l = l.erase r := by
  induction l with
  | nil => simp at hc
  | cons a t ih =>
    by_cases har : a = r
    · subst har
      rw [List.count_cons_self] at hc
      have hrt : a ∉ t := List.not_mem_of_count_eq_zero (by omega)
      have ht : ∀ n ∈ t, n.handle ≠ a.handle := fun n hn =>
        hu n (List.mem_cons_of_mem _ hn) (fun hnr => hrt (hnr ▸ hn))
      rw [List.erase_cons_head]
      calc cancelRemove a.handle (a :: t) = cancelRemove a.handle t := by
            simp [cancelRemove, List.filter_cons]
        _ = t := cancelRemove_eq_self _ _ ht
    · have hah : a.handle ≠ r.handle := hu a (List.mem_cons_self _ _) har
      have hc' : t.count r = 1 := by
        rw [List.count_cons_of_ne (Ne.symm har)] at hc
        exact hc
      have hu' : ∀ n ∈ t, n ≠ r → n.handle ≠ r.handle := fun n hn =>
        hu n (List.mem_cons_of_mem _ hn)
      rw [List.erase_cons_tail (by simp [har]), cancelRemove, List.filter_cons]
      simp only [bne_iff_ne, ne_eq, hah, not_false_eq_true, if_pos]
      rw [← cancelRemove, ih hc' hu']

/-- A finish over a wait set containing exactly one registration with the
target's blocking signal removes exactly that registration. -/
theorem finishRemove_eq_erase (r : WaitNode) (l : List WaitNode)
    (hc : l.count r = 1)
    (hu : ∀ n ∈ l, n ≠ r → n.event ≠ r.event) :
    finishRemove r.event l = l.erase r := by
  induction l with
  | nil => simp at hc
  | cons a t ih =>
    by_cases har : a = r
    · subst har
      rw [List.erase_cons_head, finishRemove, List.eraseP_cons_of_pos (by simp)]
    · have hae : a.event ≠ r.event := hu a (List.mem_cons_self _ _) har
      have hc' : t.count r = 1 := by
        rw [List.count_cons_of_ne (Ne.symm har)] at hc
        exact hc
      have hu' : ∀ n ∈ t, n ≠ r → n.event ≠ r.event := fun n hn =>
        hu n (List.mem_cons_of_mem _ hn)
      rw [List.erase_cons_tail (by simp [har]), finishRemove,
        List.eraseP_cons_of_neg (by simp [hae]), ← finishRemove, ih hc' hu']

/-- After the single copy of the target registration is erased, no remaining
registration shares its owner handle or its blocking signal. -/
theorem erase_target_free (r : WaitNode) (l : List WaitNode)
    (hc : l.count r = 1)
    (hu : ∀ n ∈ l, n ≠ r → n.handle ≠ r.handle ∧ n.event ≠ r.event) :
    ∀ n ∈ l.erase r, n.handle ≠ r.handle ∧ n.event ≠ r.event := by
  intro n hn
  have hmem : n ∈ l := List.mem_of_mem_erase hn
  by_cases hnr : n = r
  · subst hnr
    exfalso
    have hpos := List.count_pos_iff.mpr hn
    rw [List.count_erase_self, hc] at hpos
    omega
  · exact hu n hmem hnr

/-- The sum of a list of zeros is zero. -/
theorem sum_replicate_zero (m : Nat) : (List.replicate m (0 : Nat)).sum = 0 := by
  induction m with
  | zero => rfl
  | succ k ih => simp [List.replicate_succ, ih]

/-- Once the target registration is gone from the wait set (and nothing else
matches its handle or blocking signal), every further cancel, finish or
update step targeting it is a successful no-op: it removes nothing and leaves
the wait set unchanged. -/
theorem race_after (r : WaitNode) (ops : List WaiterOp) :
    ∀ w : Waiter,
    (∀ n ∈ w.nodes, n.handle ≠ r.handle ∧ n.event ≠ r.event) →
    (∀ op ∈ ops, op = WaiterOp.cancel r.handle ∨ op = WaiterOp.finish r.event ∨
      ∃ a, op = WaiterOp.update a) →
    removalTrace w r ops = List.replicate ops.length 0 ∧ (runOps w ops).nodes = w.nodes := by
  induction ops with
  | nil => exact fun w _ _ => ⟨rfl, rfl⟩
  | cons op t ih =>
    intro w hw hops
    have hstep : (applyOp w op).nodes = w.nodes := by
      rcases hops op (List.mem_cons_self _ _) with h | h | ⟨a, h⟩ <;> subst h
      · simp only [applyOp, Waiter.CancelWait]
        exact cancelRemove_eq_self _ _ (fun n hn => (hw n hn).1)
      · simp only [applyOp, Waiter.FinishWait]
        exact finishRemove_eq_self _ _ (fun n hn => (hw n hn).2)
      · rfl
    have hih := ih (applyOp w op) (by rw [hstep]; exact hw)
      (fun o ho => hops o (List.mem_cons_of_mem _ ho))
    refine ⟨?_, ?_⟩
    · simp only [removalTrace, List.length_cons, List.replicate_succ]
      rw [hstep, Nat.sub_self, hih.1]
    · simp only [runOps]
      rw [hih.2, hstep]

/-- In any serialized interleaving of cancel/finish/update steps targeting
one registration that occurs exactly once in the wait set (and shares neither
handle nor blocking signal with any other registration), with at least one
cancel or finish among them: exactly one step unlinks the registration, no
step unlinks more than one copy, and the final wait set is the original minus
that registration. -/
theorem race_trace (r : WaitNode) (ops : List WaiterOp) :
    ∀ w : Waiter,
    w.nodes.count r = 1 →
    (∀ n ∈ w.nodes, n ≠ r → n.handle ≠ r.handle ∧ n.event ≠ r.event) →
    (∀ op ∈ ops, op = WaiterOp.cancel r.handle ∨ op = WaiterOp.finish r.event ∨
      ∃ a, op = WaiterOp.update a) →
    (∃ op ∈ ops, op = WaiterOp.cancel r.handle ∨ op = WaiterOp.finish r.event) →
    (removalTrace w r ops).sum = 1 ∧ (∀ k ∈ removalTrace w r ops, k ≤ 1) ∧
      (runOps w ops).nodes = w.nodes.erase r := by
  induction ops with
  | nil =>
    intro w _ _ _ hex
    exact absurd hex (by simp)
  | cons op t ih =>
    intro w hc hu hops hex
    have hr : r ∈ w.nodes := List.count_pos_iff.mp (by omega)
    have hcount0 : (w.nodes.erase r).count r = 0 := by
      rw [List.count_erase_self, hc]
    rcases hops op (List.mem_cons_self _ _) with hcan | hfin | ⟨a, hupd⟩
    · subst hcan
      have hstep : (applyOp w (WaiterOp.cancel r.handle)).nodes = w.nodes.erase r := by
        simp only [applyOp, Waiter.CancelWait]
        exact cancelRemove_eq_erase r w.nodes hc (fun n hn hnr => (hu n hn hnr).1)
      have hafter := race_after r t (applyOp w (WaiterOp.cancel r.handle))
        (by rw [hstep]; exact erase_target_free r w.nodes hc hu)
        (fun o ho => hops o (List.mem_cons_of_mem _ ho))
      refine ⟨?_, ?_, ?_⟩
      · simp only [removalTrace]
        rw [hstep, hcount0, hc, hafter.1, List.sum_cons, sum_replicate_zero]
      · intro k hk
        simp only [removalTrace] at hk
        rw [hstep, hcount0, hc, hafter.1] at hk
        rcases List.mem_cons.mp hk with rfl | hk'
        · omega
        · rw [List.eq_of_mem_replicate hk']
          omega
      · simp only [runOps]
        rw [hafter.2, hstep]
    · subst hfin
      have hstep : (applyOp w (WaiterOp.finish r.event)).nodes = w.nodes.erase r := by
        simp only [applyOp, Waiter.FinishWait]
        exact finishRemove_eq_erase r w.nodes hc (fun n hn hnr => (hu n hn hnr).2)
      have hafter := race_after r t (applyOp w (WaiterOp.finish r.event))
        (by rw [hstep]; exact erase_target_free r w.nodes hc hu)
        (fun o ho => hops o (List.mem_cons_of_mem _ ho))
      refine ⟨?_, ?_, ?_⟩
      · simp only [removalTrace]
        rw [hstep, hcount0, hc, hafter.1, List.sum_cons, sum_replicate_zero]
      · intro k hk
        simp only [removalTrace] at hk
        rw [hstep, hcount0, hc, hafter.1] at hk
        rcases List.mem_cons.mp hk with rfl | hk'
        · omega
        · rw [List.eq_of_mem_replicate hk']
          omega
      · simp only [runOps]
        rw [hafter.2, hstep]
    · subst hupd
      have hstep : (applyOp w (WaiterOp.update a)).nodes = w.nodes := rfl
      have hex' : ∃ o ∈ t, o = WaiterOp.cancel r.handle ∨ o = WaiterOp.finish r.event := by
        rcases hex with ⟨o, ho, hor⟩
        rcases List.mem_cons.mp ho with rfl | hot
        · rcases hor with h | h <;> exact absurd h (by simp)
        · exact ⟨o, hot, hor⟩
      have hih := ih (applyOp w (WaiterOp.update a)) (by rw [hstep]; exact hc)
        (by rw [hstep]; exact hu) (fun o ho => hops o (List.mem_cons_of_mem _ ho)) hex'
      refine ⟨?_, ?_, ?_⟩
      · simp only [removalTrace]
        rw [hstep, Nat.sub_self, List.sum_cons, hih.1]
      · intro k hk
        simp only [removalTrace] at hk
        rw [hstep, Nat.sub_self] at hk
        rcases List.mem_cons.mp hk with rfl | hk'
        · omega
        · exact hih.2.1 k hk'
      · simp only [runOps]
        rw [hih.2.2, hstep]

/-- Erasing commutes with mapping an injective-on-the-list function. -/
theorem map_erase_of_injOn {α β : Type} [DecidableEq α] [DecidableEq β]
    (f : α → β) (l : List α) (r : α)
    (hinj : ∀ x ∈ l, ∀ y ∈ l, f x = f y → x = y) (hr : r ∈ l) :
    (l.map f).erase (f r) = (l.erase r).map f := by
  induction l with
  | nil => cases hr
  | cons a t ih =>
    by_cases har : a = r
    · subst har
      rw [List.map_cons, List.erase_cons_head, List.erase_cons_head]
    · have hrt : r ∈ t := by
        rcases List.mem_cons.mp hr with h | h
        · exact absurd h.symm har
        · exact h
      have hfa : f a ≠ f r := fun h =>
        har (hinj a (List.mem_cons_self _ _) r hr h)
      have hinj' : ∀ x ∈ t, ∀ y ∈ t, f x = f y → x = y := fun x hx y hy =>
        hinj x (List.mem_cons_of_mem _ hx) y (List.mem_cons_of_mem _ hy)
      rw [List.map_cons, List.erase_cons_tail (by simp [hfa]),
        List.erase_cons_tail (by simp [har]), List.map_cons, ih hinj' hrt]

/-- When every registration of the wait set is removed by its own finish (by
blocking signal) or cancel (by owner handle), in any serialized order, and
registrations share no blocking signal and no owner handle, every removal
succeeds: the total number of unlinked registrations equals the size of the
wait set, and the final wait set is empty. -/
theorem removal_all (ops : List WaiterOp) :
    ∀ (w : Waiter) (f : WaitNode → WaiterOp),
    (∀ n, f n = WaiterOp.finish n.event ∨ f n = WaiterOp.cancel n.handle) →
    (w.nodes.map WaitNode.event).Nodup →
    (w.nodes.map WaitNode.handle).Nodup →
    ops.Perm (w.nodes.map f) →
    removalCount w ops = w.nodes.length ∧ (runOps w ops).nodes = [] := by
  induction ops with
  | nil =>
    intro w f _ _ _ hp
    have hnil : w.nodes = [] := by
      have := List.perm_nil.mp hp.symm
      simpa using this
    rw [hnil]
    exact ⟨rfl, hnil⟩
  | cons op t ih =>
    intro w f hf he hh hp
    obtain ⟨r, hr, hfr⟩ := List.mem_map.mp (hp.subset (List.mem_cons_self op t))
    have hnd : w.nodes.Nodup := List.Nodup.of_map _ he
    have hcr : w.nodes.count r = 1 := List.count_eq_one_of_mem hnd hr
    have hstep : (applyOp w op).nodes = w.nodes.erase r := by
      rcases hf r with h | h
      · rw [← hfr, h]
        simp only [applyOp, Waiter.FinishWait]
        exact finishRemove_eq_erase r w.nodes hcr
          (fun n hn hnr hev => hnr (List.inj_on_of_nodup_map he hn hr hev))
      · rw [← hfr, h]
        simp only [applyOp, Waiter.CancelWait]
        exact cancelRemove_eq_erase r w.nodes hcr
          (fun n hn hnr hha => hnr (List.inj_on_of_nodup_map hh hn hr hha))
    have hpos : 0 < w.nodes.length := List.length_pos_of_mem hr
    have hlen : (applyOp w op).nodes.length = w.nodes.length - 1 := by
      rw [hstep, List.length_erase_of_mem hr]
    have hsub : (w.nodes.erase r).Sublist w.nodes := List.erase_sublist r w.nodes
    have he' : ((applyOp w op).nodes.map WaitNode.event).Nodup := by
      rw [hstep]
      exact List.Nodup.sublist (hsub.map _) he
    have hh' : ((applyOp w op).nodes.map WaitNode.handle).Nodup := by
      rw [hstep]
      exact List.Nodup.sublist (hsub.map _) hh
    have hinj : ∀ x ∈ w.nodes, ∀ y ∈ w.nodes, f x = f y → x = y := by
      intro x hx y hy hxy
      rcases hf x with hx1 | hx1 <;> rcases hf y with hy1 | hy1 <;>
        rw [hx1, hy1] at hxy
      · exact List.inj_on_of_nodup_map he hx hy (by injection hxy)
      · exact absurd hxy (by simp)
      · exact absurd hxy (by simp)
      · exact List.inj_on_of_nodup_map hh hx hy (by injection hxy)
    have hperm' : t.Perm ((applyOp w op).nodes.map f) := by
      have h1 := (List.cons_perm_iff_perm_erase.mp hp).2
      rw [hstep, ← map_erase_of_injOn f w.nodes r hinj hr, hfr]
      exact h1
    have hih := ih (applyOp w op) f hf he' hh' hperm'
    refine ⟨?_, ?_⟩
    · have hrem1 : opRemoves w op = 1 := by
        rw [opRemoves, hlen]
        omega
      rw [removalCount, hrem1, hih.1, hlen]
      omega
    · simp only [runOps]
      exact hih.2

/-- C3: for a registration created by `BeginWait` that occurs exactly once in
the wait set and shares neither owner handle nor blocking signal with any
other registration, any serialized interleaving (the spin lock makes each
call atomic) of `CancelWait` on its handle, `FinishWait` on its signal and
`UpdateState` calls, containing at least one of the two removers, unlinks the
node exactly once in total, never more than once at any step, and leaves the
wait set equal to the original minus that node — the racing loser observes
the node already gone and is a successful no-op. Moreover, with N
registrations (pairwise distinct blocking signals and owner handles) each
removed by its own `FinishWait` or `CancelWait` in any serialized order,
exactly N successful removals occur and the wait set ends empty. -/
theorem waiter_race_exactly_one_unlink :
    (∀ (w : Waiter) (r : WaitNode) (ops : List WaiterOp),
      w.nodes.count r = 1 →
      (∀ n ∈ w.nodes, n ≠ r → n.handle ≠ r.handle ∧ n.event ≠ r.event) →
      (∀ op ∈ ops, op = WaiterOp.cancel r.handle ∨ op = WaiterOp.finish r.event ∨
        ∃ a, op = WaiterOp.update a) →
      (∃ op ∈ ops, op = WaiterOp.cancel r.handle ∨ op = WaiterOp.finish r.event) →
      (removalTrace w r ops).sum = 1 ∧ (∀ k ∈ removalTrace w r ops, k ≤ 1) ∧
        (runOps w ops).nodes = w.nodes.erase r) ∧
    (∀ (w : Waiter) (f : WaitNode → WaiterOp) (ops : List WaiterOp),
      (∀ n, f n = WaiterOp.finish n.event ∨ f n = WaiterOp.cancel n.handle) →
      (w.nodes.map WaitNode.event).Nodup →
      (w.nodes.map WaitNode.handle).Nodup →
      ops.Perm (w.nodes.map f) →
      removalCount w ops = w.nodes.length ∧ (runOps w ops).nodes = []) :=
  ⟨fun w r ops hc hu hops hex => race_trace r ops w hc hu hops hex,
   fun w f ops hf he hh hp => removal_all ops w f hf he hh hp⟩

/-- C3 witness: a concrete race of one cancel, one finish and one update on a
single registration yields exactly one unlink; and two registrations removed
by one finish and one cancel, in an order different from their list order,
yield exactly two successful removals. -/
theorem waiter_race_exactly_one_unlink_witness :
    (removalTrace (Waiter.mk [⟨1, 2, 3, 0⟩] ⟨0, 3⟩ none) ⟨1, 2, 3, 0⟩
        [WaiterOp.update ⟨3, 0, 0, 0, false⟩, WaiterOp.cancel 2, WaiterOp.finish 1]).sum = 1 ∧
    removalCount (Waiter.mk [⟨1, 2, 3, 0⟩, ⟨4, 5, 3, 0⟩] ⟨0, 3⟩ none)
        [WaiterOp.cancel 5, WaiterOp.finish 1] = 2 := by
  constructor
  · refine (waiter_race_exactly_one_unlink.1 (Waiter.mk [⟨1, 2, 3, 0⟩] ⟨0, 3⟩ none) ⟨1, 2, 3, 0⟩
      [WaiterOp.update ⟨3, 0, 0, 0, false⟩, WaiterOp.cancel 2, WaiterOp.finish 1]
      (by decide) (by decide) ?_ (by decide)).1
    intro op hop
    rcases List.mem_cons.mp hop with rfl | hop'
    · exact Or.inr (Or.inr ⟨_, rfl⟩)
    · rcases List.mem_cons.mp hop' with rfl | hop''
      · exact Or.inl rfl
      · rcases List.mem_cons.mp hop'' with rfl | h
        · exact Or.inr (Or.inl rfl)
        · cases h
  · have h := waiter_race_exactly_one_unlink.2
      (Waiter.mk [⟨1, 2, 3, 0⟩, ⟨4, 5, 3, 0⟩] ⟨0, 3⟩ none)
      (fun n => if n.event = 1 then WaiterOp.finish n.event else WaiterOp.cancel n.handle)
      [WaiterOp.cancel 5, WaiterOp.finish 1]
      (fun n => by by_cases hn : n.event = 1 <;> simp [hn])
      (by decide) (by decide)
      (by
        have hmap : ([⟨1, 2, 3, 0⟩, ⟨4, 5, 3, 0⟩] : List WaitNode).map
            (fun n => if n.event = 1 then WaiterOp.finish n.event else WaiterOp.cancel n.handle)
            = [WaiterOp.finish 1, WaiterOp.cancel 5] := by decide
        rw [hmap]
        exact List.Perm.swap _ _ _)
    exact h.1
